import Mathlib

/-!
Verification development for the dislib block-partitioned preprocessing core
(`dislib/preprocessing/classes.py`: `StandardScaler.fit`, `fit_transform`,
`transform`, tasks `_compute_var`, `_transform`) together with the
spec-described block-store collaborator (merge/split, `apply_along_axis`
mean) and the row-permutation utilities (`shuffle`, `resample`), which are
exercised by `tests/test_utils.py` but whose implementation is outside the
provided sources and is therefore modelled from the specification.

Matrices are shallow-embedded row-major as `List (List α)`.  Numeric
entries are taken in an arbitrary `Field` (instantiated at `ℝ` when the
standardization formula `(x - mean) / sqrt(var)` is concerned, and at an
extended-rational IEEE-style type `FP` when the division-by-zero behaviour
of the transform is concerned).
-/

/-- Row-major concrete matrix: a list of rows. -/
abbrev Mat (α : Type) := List (List α)

/-- `M` is rectangular with `r` rows and `c` columns. -/
def Rect {α : Type} (M : Mat α) (r c : Nat) : Prop :=
  M.length = r ∧ ∀ row ∈ M, row.length = c

/-- Number of columns of a matrix, as numpy's `shape[1]` (width of the
first row; matrices are used rectangularly). -/
def ncols {α : Type} (M : Mat α) : Nat := (M.headD []).length

/-- `range(0, n, s)` in Python has `(n + s - 1) / s` elements (for `s ≥ 1`);
this is the number of column-slices of width `s` cut from `n` columns. -/
def numSplits (n s : Nat) : Nat := (n + s - 1) / s

/-- `M[:, j : j+w]` : the column slice of width `w` starting at column `j`. -/
def sliceCols {α : Type} (M : Mat α) (j w : Nat) : Mat α :=
  M.map (fun r => (r.drop j).take w)

/-- Ternary pointwise zip, truncating to the shortest list (broadcasting of
a row over aligned rows). -/
def zip3With {α : Type} (f : α → α → α → α) : List α → List α → List α → List α
  | a :: as, b :: bs, c :: cs => f a b c :: zip3With f as bs cs
  | _, _, _ => []

/-- Horizontal concatenation of a list of same-height matrices
(`Array._merge_blocks` on one block-row, per spec §4.1: blocks of a
row-band are concatenated along columns). -/
def hcatList {α : Type} : List (Mat α) → Mat α
  | [] => []
  | [M] => M
  | M :: rest => List.zipWith (fun r s => r ++ s) M (hcatList rest)

/-- A block handle: a concrete sub-matrix together with its representation
class (`True` = compressed-sparse-row, `False` = dense), per spec §3. -/
structure Block (α : Type) where
  data : Mat α
  sparse : Bool
deriving DecidableEq

/-- Modelled from the spec (§3 BlockStore): the ds-array `Array` class is
not among the provided sources; its observable contract is the 2-D grid of
block handles `_blocks`, the nominal block size `_blocks_shape`
(`blockShapeRows`, `blockShapeCols`), the global `shape`, and the uniform
`_sparse` flag. -/
structure BlockStore (α : Type) where
  blocks : List (List (Block α))
  blocksShape : Nat × Nat
  shape : Nat × Nat
  sparse : Bool
deriving DecidableEq

/-- Result store of `StandardScaler.transform`: output slots are
pre-allocated (`out_blocks = [object() for _ in range(n_blocks)]`) and the
task writes some of them; a slot never written stays a placeholder,
modelled as `none`. -/
structure ScaledStore (α : Type) where
  blocks : List (List (Option (Block α)))
  blocksShape : Nat × Nat
  shape : Nat × Nat
  sparse : Bool
deriving DecidableEq

/-- Merge the data of a row-band's blocks into one concrete matrix
(spec §4.1 `mergeBlocks`). -/
def mergeData {α : Type} (bs : List (Block α)) : Mat α :=
  hcatList (bs.map (fun b => b.data))

/-- Representation class of the merged matrix (`issparse(x)` after
`Array._merge_blocks`): the store invariant makes all blocks of a band
share one class, so the merged class is the first block's. -/
def mergedSparse {α : Type} (bs : List (Block α)) : Bool :=
  (bs.headD ⟨[], false⟩).sparse

/-- Collect the logical matrix of a `BlockStore`: merge every row-band and
stack the bands vertically. -/
def collect {α : Type} (x : BlockStore α) : Mat α :=
  (x.blocks.map (fun band => mergeData band)).flatten

/-- Collect the logical matrix of a transform result, reading the written
blocks of every row-band in slot order. -/
def collectS {α : Type} (s : ScaledStore α) : Mat α :=
  (s.blocks.map (fun band => mergeData (band.filterMap id))).flatten

/-- The flat list of blocks of a `(1, n_features)` statistics store, as
passed for merging (`self.mean_._blocks`, `self.var_._blocks`). -/
def bandBlocks {α : Type} (x : BlockStore α) : List (Block α) :=
  x.blocks.flatten

/-- `j`-th column of a matrix (entries of each row at index `j`). -/
def colOf {α : Type} [Inhabited α] (M : Mat α) (j : Nat) : List α :=
  M.map (fun r => r.getD j default)

/-- Arithmetic mean of a list (`np.mean`). -/
def lmean {α : Type} [Field α] (l : List α) : α := l.sum / (l.length : α)

/-- Column-wise mean (`np.mean(·, axis=0)` at column `j`). -/
def colMean {α : Type} [Field α] [Inhabited α] (M : Mat α) (j : Nat) : α :=
  lmean (colOf M j)

/-- Column-wise population variance at column `j`. -/
def colVar {α : Type} [Field α] [Inhabited α] (M : Mat α) (j : Nat) : α :=
  lmean ((colOf M j).map (fun a => (a - colMean M j) ^ 2))

/-- `(x - mean) ** 2` with numpy broadcasting of the `(1, n)` matrix
`M` over the rows of `X`. -/
def sqDev {α : Type} [Field α] (X M : Mat α) : Mat α :=
  X.map (fun r => List.zipWith (fun a m => (a - m) ^ 2) r (M.headD []))

/-- Entry-wise standardization with numpy broadcasting of the mean row and
variance row over the rows of `X`; the scalar operation
`scale x m v` (the source's `(x - mean) / np.sqrt(var)` per entry) is a
parameter so that the same block-level code is studied over `ℝ` and over
IEEE-style extended values. -/
def scaleMat {α : Type} (scale : α → α → α → α) (X M V : Mat α) : Mat α :=
  X.map (fun r => zip3With scale r (M.headD []) (V.headD []))

/-- The per-entry standardization over the reals:
`(x - mean) / sqrt(var)`. -/
noncomputable def realScale (a m v : ℝ) : ℝ := (a - m) / Real.sqrt v

/-- Modelled from the spec (§4.2, §6): `ds.apply_along_axis(np.mean, 0, x)`
belongs to the excluded logical-matrix collaborator; it yields the exact
column-wise mean of `x` as a `(1, n_features)` dense BlockStore. -/
def applyAlongAxisMean {α : Type} [Field α] [Inhabited α] (x : BlockStore α) :
    BlockStore α :=
  { blocks := [[⟨[(List.range x.shape.2).map (fun j => colMean (collect x) j)],
                 false⟩]]
    blocksShape := (1, x.shape.2)
    shape := (1, x.shape.2)
    sparse := false }

/-- Task `_compute_var(blocks, m_blocks)` (source lines 98–101): merge the
blocks and the mean blocks and return
`np.mean(np.array(x - mean) ** 2, axis=0)`, a dense `(1, n_features)`
result. -/
def _compute_var {α : Type} [Field α] [Inhabited α]
    (blocks m_blocks : List (Block α)) : Block α :=
  let x := mergeData blocks
  let mean := mergeData m_blocks
  ⟨[(List.range (ncols x)).map (fun j => lmean (colOf (sqDev x mean) j))],
   false⟩

/-- Task `_transform(blocks, m_blocks, v_blocks, out_blocks)` (source lines
108–118): merge the three block groups, compute
`scaled_x = (x - mean) / np.sqrt(var)`, then write
`out_blocks[i] = constructor_func(scaled_x[:, j : j + bm])` for
`i, j in enumerate(range(0, x.shape[1], bm))` where `bm = len(blocks)` and
the constructor is dense or compressed-sparse-row according to
`issparse(x)`. -/
def _transform {α : Type} (scale : α → α → α → α)
    (blocks m_blocks v_blocks : List (Block α))
    (out_blocks : List (Option (Block α))) : List (Option (Block α)) :=
  let x := mergeData blocks
  let mean := mergeData m_blocks
  let var := mergeData v_blocks
  let scaled := scaleMat scale x mean var
  let bm := blocks.length
  let sp := mergedSparse blocks
  (List.range (numSplits (ncols x) bm)).foldl
    (fun out i => out.set i (some ⟨sliceCols scaled (i * bm) bm, sp⟩))
    out_blocks

/-- The `StandardScaler` instance state: `mean_` and `var_` start as
`None` in `__init__` and are set by `fit`. -/
structure StandardScaler (α : Type) where
  mean_ : Option (BlockStore α)
  var_ : Option (BlockStore α)
deriving DecidableEq

/-- `StandardScaler.__init__`: both statistics absent. -/
def StandardScaler.init {α : Type} : StandardScaler α := ⟨none, none⟩

/-- `StandardScaler.fit` (source lines 30–50): compute the mean store,
then submit one `_compute_var` task per row-band of `x` (spec §4.3: the
iteration pairs each row-band with the mean store's matching column
blocks), collecting the results into a single-band variance store built
with the mean's block-shape and shape and `sparse=False`. -/
def StandardScaler.fit {α : Type} [Field α] [Inhabited α]
    (_self : StandardScaler α) (x : BlockStore α) : StandardScaler α :=
  let mean := applyAlongAxisMean x
  { mean_ := some mean
    var_ := some
      { blocks := [x.blocks.map (fun band => _compute_var band (bandBlocks mean))]
        blocksShape := mean.blocksShape
        shape := mean.shape
        sparse := false } }

/-- Errors surfaced by the scaler; `transform` before `fit` raises
(`NotFittedError` in the spec's taxonomy, source line 80). -/
inductive ScalerError where
  | notFitted
deriving DecidableEq

/-- `StandardScaler.transform` (source lines 66–92): fail when `mean_` or
`var_` is absent; otherwise, for every row-band of `x`, pre-allocate
`x._blocks_shape[1]` output slots and run `_transform` on the band with
the fitted mean/variance blocks; return a store with `x`'s block-shape,
shape and sparsity flag. -/
def StandardScaler.transform {α : Type} (scale : α → α → α → α)
    (self : StandardScaler α) (x : BlockStore α) :
    Except ScalerError (ScaledStore α) :=
  match self.mean_, self.var_ with
  | some m, some v =>
      let n_blocks := x.blocksShape.2
      Except.ok
        { blocks := x.blocks.map (fun band =>
            _transform scale band (bandBlocks m) (bandBlocks v)
              (List.replicate n_blocks none))
          blocksShape := x.blocksShape
          shape := x.shape
          sparse := x.sparse }
  | _, _ => Except.error ScalerError.notFitted

/-- `StandardScaler.fit_transform` (source lines 52–64):
`return self.fit(x).transform(x)`. -/
def StandardScaler.fit_transform {α : Type} [Field α] [Inhabited α]
    (scale : α → α → α → α) (self : StandardScaler α) (x : BlockStore α) :
    Except ScalerError (ScaledStore α) :=
  (self.fit x).transform scale x

/-- Store well-formedness (spec §3 invariants): positive nominal block
width, every row-band has `numSplits n_cols blockWidth` nonempty blocks,
every merged row-band is rectangular of width `n_cols`, the band heights
sum to `n_rows`, and every block carries the store's sparsity class. -/
structure WF {α : Type} (x : BlockStore α) : Prop where
  wpos : 0 < x.blocksShape.2
  bandLen : ∀ band ∈ x.blocks, band.length = numSplits x.shape.2 x.blocksShape.2
  bandNE : ∀ band ∈ x.blocks, band ≠ []
  bandRect : ∀ band ∈ x.blocks, ∀ r ∈ mergeData band, r.length = x.shape.2
  rowsTotal : (x.blocks.map (fun band => (mergeData band).length)).sum = x.shape.1
  bandRowsNE : ∀ band ∈ x.blocks, mergeData band ≠ []
  sparseU : ∀ band ∈ x.blocks, ∀ b ∈ band, b.sparse = x.sparse

/-- Extended rational values modelling IEEE double entries as numpy
produces them in `_transform`: finite values (exact rationals), the two
infinities, and not-a-number.  Rounding is not modelled; the special
values arising from division by zero are modelled exactly. -/
inductive FP where
  | num : ℚ → FP
  | pinf : FP
  | ninf : FP
  | nan : FP
deriving DecidableEq

/-- Whether an extended value is finite. -/
def FP.isFinite : FP → Bool
  | .num _ => true
  | _ => false

/-- IEEE subtraction on extended values. -/
def FP.sub : FP → FP → FP
  | .nan, _ => .nan
  | _, .nan => .nan
  | .num a, .num b => .num (a - b)
  | .num _, .pinf => .ninf
  | .num _, .ninf => .pinf
  | .pinf, .num _ => .pinf
  | .ninf, .num _ => .ninf
  | .pinf, .pinf => .nan
  | .pinf, .ninf => .pinf
  | .ninf, .pinf => .ninf
  | .ninf, .ninf => .nan

/-- Rational stand-in for `np.sqrt` on finite values (exact on perfect
squares, in particular at `0`, the only point the zero-variance claims
evaluate it at). -/
def ratSqrt (q : ℚ) : ℚ := mkRat (Int.sqrt q.num) (Nat.sqrt q.den)

/-- IEEE square root on extended values: `nan` for negative or `nan`
arguments, `+inf` at `+inf`. -/
def FP.sqrt : FP → FP
  | .nan => .nan
  | .pinf => .pinf
  | .ninf => .nan
  | .num q => if q < 0 then .nan else .num (ratSqrt q)

/-- IEEE division on extended values: a nonzero finite value divided by
zero gives a signed infinity and `0 / 0` gives `nan` (numpy emits a
warning but produces exactly these values). -/
def FP.div : FP → FP → FP
  | .nan, _ => .nan
  | _, .nan => .nan
  | .num a, .num b =>
      if b = 0 then (if a = 0 then .nan else if 0 < a then .pinf else .ninf)
      else .num (a / b)
  | .num _, .pinf => .num 0
  | .num _, .ninf => .num 0
  | .pinf, .num b => if 0 ≤ b then .pinf else .ninf
  | .ninf, .num b => if 0 ≤ b then .ninf else .pinf
  | .pinf, _ => .nan
  | .ninf, _ => .nan

/-- The per-entry standardization `(x - mean) / np.sqrt(var)` on extended
values. -/
def fpScale (a m v : FP) : FP := (a.sub m).div v.sqrt

/-- A linear congruential step (Numerical Recipes constants modulo 2^32),
the pseudo-random source of the spec-modelled permutation engine. -/
def lcg (s : Nat) : Nat := (1664525 * s + 1013904223) % 4294967296

/-- Pseudo-random sort key for index `i` under `seed`. -/
def lcgKey (seed i : Nat) : Nat := lcg (lcg seed + i)

/-- Insertion of a keyed element into a key-sorted list. -/
def insertByKey {α : Type} (key : α → Nat) (a : α) : List α → List α
  | [] => [a]
  | b :: bs => if key a ≤ key b then a :: b :: bs else b :: insertByKey key a bs

/-- Key-ordered insertion sort. -/
def sortByKey {α : Type} (key : α → Nat) : List α → List α
  | [] => []
  | a :: as => insertByKey key a (sortByKey key as)

/-- Modelled from the spec (§4.6): generate a permutation of
`[0, n_rows)` from `seed` by ordering the indices by a pseudo-random
key stream. -/
def permFromSeed (seed n : Nat) : List Nat :=
  sortByKey (fun i => lcgKey seed i) (List.range n)

/-- Reorder the rows of a matrix by the seed-derived permutation. -/
def shuffleRows {α : Type} (seed : Nat) (M : Mat α) : Mat α :=
  (permFromSeed seed M.length).map (fun i => M.getD i [])

/-- Cut a list into consecutive chunks of size `s` (the last chunk may be
smaller): chunk `i` is `l[i*s : (i+1)*s]`. -/
def chunksOf {α : Type} (s : Nat) (l : List α) : List (List α) :=
  (List.range (numSplits l.length s)).map (fun i => (l.drop (i * s)).take s)

/-- Re-partition a concrete matrix into a block grid with nominal block
size `(br, bc)` and sparsity class `sp` (spec §4.1 `splitIntoBlocks`,
applied on both axes). -/
def splitGrid {α : Type} (M : Mat α) (br bc : Nat) (sp : Bool) :
    List (List (Block α)) :=
  (chunksOf br M).map (fun band =>
    (List.range (numSplits (ncols band) bc)).map
      (fun i => Block.mk (sliceCols band (i * bc) bc) sp))

/-- Modelled from the spec (§4.6 `shuffle`): reorder the rows of `x` by
the seed-derived permutation into a new BlockStore with the same
block-size scheme, shape and sparsity class as the input. -/
def shuffle {α : Type} (seed : Nat) (x : BlockStore α) : BlockStore α :=
  { blocks := splitGrid (shuffleRows seed (collect x)) x.blocksShape.1
      x.blocksShape.2 x.sparse
    blocksShape := x.blocksShape
    shape := x.shape
    sparse := x.sparse }

/-- A dataset of row-partitioned samples with its configured subset size
(the subset-size policy of spec §4.6/§3). -/
structure Dataset (α : Type) where
  subsets : List (Mat α)
  subsetSize : Nat
  sparse : Bool

/-- Total number of sample rows of a dataset. -/
def Dataset.nRows {α : Type} (d : Dataset α) : Nat := d.subsets.flatten.length

/-- Modelled from the spec (§4.6 `resample`): draw `n_samples` row indices
with replacement from `[0, total_rows)` using the seed-derived key stream,
gather those rows, and partition them into subsets of the dataset's
configured subset size, the final subset possibly smaller; sparsity is
preserved. -/
def resample {α : Type} (d : Dataset α) (n_samples : Nat) (seed : Nat) :
    Dataset α :=
  let rows := d.subsets.flatten
  let idxs := (List.range n_samples).map (fun i => lcgKey seed i % rows.length)
  let sampled := idxs.map (fun i => rows.getD i [])
  { subsets := chunksOf d.subsetSize sampled
    subsetSize := d.subsetSize
    sparse := d.sparse }


theorem numSplits_zero (s : Nat) : numSplits 0 s = 0 := by
  unfold numSplits
  rcases s with _ | s
  · rfl
  · exact Nat.div_eq_of_lt (by omega)

theorem numSplits_pos {n s : Nat} (hn : 0 < n) (hs : 0 < s) :
    0 < numSplits n s := by
  unfold numSplits
  exact Nat.div_pos (by omega) hs

theorem numSplits_eq_one {n s : Nat} (hn : 0 < n) (hns : n ≤ s) :
    numSplits n s = 1 := by
  unfold numSplits
  have hs : 0 < s := by omega
  have hlo : 1 ≤ (n + s - 1) / s := (Nat.le_div_iff_mul_le hs).mpr (by omega)
  have hhi : (n + s - 1) / s < 2 := (Nat.div_lt_iff_lt_mul hs).mpr (by omega)
  omega

theorem numSplits_succ_step {n s : Nat} (hs : 0 < s) (hns : s < n) :
    numSplits n s = numSplits (n - s) s + 1 := by
  unfold numSplits
  have h : n + s - 1 = (n - s + s - 1) + s := by omega
  rw [h, Nat.add_div_right _ hs]

theorem le_numSplits_mul {n s : Nat} (hs : 0 < s) : n ≤ numSplits n s * s := by
  unfold numSplits
  have h1 := Nat.div_add_mod (n + s - 1) s
  have h2 := Nat.mod_lt (n + s - 1) hs
  have h3 : ((n + s - 1) / s) * s = s * ((n + s - 1) / s) := Nat.mul_comm _ _
  omega

theorem numSplits_lt_iff {n s k : Nat} (hs : 0 < s) :
    numSplits n s < k ↔ n + s - 1 < k * s := by
  unfold numSplits
  exact Nat.div_lt_iff_lt_mul hs

theorem pos_of_numSplits_pos {n s : Nat} (h : 0 < numSplits n s) : 0 < n := by
  by_contra hn
  have h0 : n = 0 := by omega
  rw [h0, numSplits_zero] at h
  omega

/-- The number of width-`k` slices of `n` columns, where `k` is itself the
number of width-`w` blocks covering `n` columns, never exceeds `w`. -/
theorem numSplits_numSplits_le {n w : Nat} (hw : 0 < w) :
    numSplits n (numSplits n w) ≤ w := by
  rcases Nat.eq_zero_or_pos n with hn | hn
  · subst hn
    simp [numSplits_zero]
  · have hk : 0 < numSplits n w := numSplits_pos hn hw
    have hcov : n ≤ numSplits n w * w := le_numSplits_mul hw
    have hlt : numSplits n (numSplits n w) < w + 1 := by
      rw [numSplits_lt_iff hk]
      have hexp : (w + 1) * numSplits n w = numSplits n w * w + numSplits n w := by
        ring
      omega
    omega

theorem flatten_slices {β : Type} (s : Nat) (hs : 0 < s) (l : List β) :
    ((List.range (numSplits l.length s)).map
      (fun i => (l.drop (i * s)).take s)).flatten = l := by
  suffices H : ∀ (n : Nat) (l : List β), l.length = n →
      ((List.range (numSplits l.length s)).map
        (fun i => (l.drop (i * s)).take s)).flatten = l from H l.length l rfl
  intro n
  induction n using Nat.strong_induction_on with
  | _ n ih =>
    intro l hn
    rcases Nat.eq_zero_or_pos n with h0 | hpos
    · subst h0
      have hnil : l = [] := List.length_eq_zero.mp hn
      subst hnil
      simp [numSplits_zero]
    · have hp : 0 < numSplits l.length s := by
        rw [hn]; exact numSplits_pos hpos hs
      obtain ⟨p, hpeq⟩ : ∃ p, numSplits l.length s = p + 1 :=
        ⟨numSplits l.length s - 1, by omega⟩
      rw [hpeq, List.range_succ_eq_map]
      simp only [List.map_cons, List.map_map, List.flatten_cons, Nat.zero_mul,
        List.drop_zero]
      have hshift : ∀ i : Nat,
          ((l.drop ((i + 1) * s)).take s) = (((l.drop s).drop (i * s)).take s) := by
        intro i
        rw [List.drop_drop]
        congr 1
        ring_nf
      rcases Nat.lt_or_ge s l.length with hlt | hge
      · have hrec : numSplits (l.length - s) s = p := by
          have hstep := numSplits_succ_step (n := l.length) hs hlt
          omega
        have hlen : (l.drop s).length = l.length - s := by
          rw [List.length_drop]
        have hih := ih (l.length - s) (by omega) (l.drop s) (by omega)
        rw [hlen, hrec] at hih
        calc l.take s ++ (List.map ((fun i => (l.drop (i * s)).take s) ∘ (· + 1))
                (List.range p)).flatten
            = l.take s ++ (List.map (fun i => ((l.drop s).drop (i * s)).take s)
                (List.range p)).flatten := by
              congr 1
              congr 1
              exact List.map_congr_left (fun i _ => hshift i)
          _ = l.take s ++ l.drop s := by rw [hih]
          _ = l := List.take_append_drop s l
      · have hone : numSplits l.length s = 1 := numSplits_eq_one (by omega) hge
        have hp0 : p = 0 := by omega
        subst hp0
        simp [List.take_of_length_le (by omega : l.length ≤ s)]

theorem chunksOf_flatten {β : Type} (s : Nat) (hs : 0 < s) (l : List β) :
    (chunksOf s l).flatten = l :=
  flatten_slices s hs l

theorem set_append_len {β : Type} (l : List β) (a x : β) (t : List β) :
    (l ++ a :: t).set l.length x = l ++ x :: t := by
  induction l with
  | nil => rfl
  | cons b bs ih => simp [List.set, ih]

theorem foldl_set_range {β : Type} (g : Nat → β) (b : β) :
    ∀ (p w : Nat), p ≤ w →
    (List.range p).foldl (fun out i => out.set i (g i)) (List.replicate w b)
      = (List.range p).map g ++ List.replicate (w - p) b := by
  intro p
  induction p with
  | zero => intro w _; simp
  | succ p ih =>
    intro w hw
    rw [List.range_succ, List.foldl_append, ih w (by omega)]
    simp only [List.foldl_cons, List.foldl_nil]
    have hrep : List.replicate (w - p) b = b :: List.replicate (w - (p + 1)) b := by
      have h : w - p = (w - (p + 1)) + 1 := by omega
      rw [h, List.replicate_succ]
    rw [hrep]
    have hlen : ((List.range p).map g).length = p := by simp
    calc ((List.range p).map g ++ b :: List.replicate (w - (p + 1)) b).set p (g p)
        = ((List.range p).map g ++ b :: List.replicate (w - (p + 1)) b).set
            ((List.range p).map g).length (g p) := by rw [hlen]
      _ = (List.range p).map g ++ g p :: List.replicate (w - (p + 1)) b :=
          set_append_len _ _ _ _
      _ = (List.range p ++ [p]).map g ++ List.replicate (w - (p + 1)) b := by
          rw [List.map_append, List.append_assoc]
          rfl

theorem filterMap_someMap_replicate {β : Type} (l : List β) (k : Nat) :
    ((l.map (fun a => some a) ++ List.replicate k none).filterMap id) = l := by
  rw [List.filterMap_append]
  have h1 : (l.map (fun a => some a)).filterMap id = l := by
    rw [List.filterMap_map]
    simp
  have h2 : (List.replicate k (none : Option β)).filterMap id = [] := by
    induction k with
    | zero => rfl
    | succ k ih => simp [List.replicate_succ, List.filterMap_cons, ih]
  rw [h1, h2, List.append_nil]

theorem zipWith_map_same {β γ : Type} (f : γ → γ → γ) (g h : β → γ)
    (l : List β) :
    List.zipWith f (l.map g) (l.map h) = l.map (fun x => f (g x) (h x)) := by
  induction l with
  | nil => rfl
  | cons a as ih => simp [ih]

theorem hcat_of_maps {α : Type} (z : Mat α) :
    ∀ (fs : List (List α → List α)), fs ≠ [] →
    hcatList (fs.map (fun f => z.map f))
      = z.map (fun r => (fs.map (fun f => f r)).flatten) := by
  intro fs
  induction fs with
  | nil => intro h; exact absurd rfl h
  | cons f rest ih =>
    intro _
    rcases rest with _ | ⟨g, rest'⟩
    · simp [hcatList]
    · have hne : (g :: rest') ≠ [] := by simp
      have hstep : hcatList ((f :: g :: rest').map (fun f => z.map f))
          = List.zipWith (fun r s => r ++ s) (z.map f)
              (hcatList ((g :: rest').map (fun f => z.map f))) := by
        simp only [List.map_cons]
        rfl
      rw [hstep, ih hne, zipWith_map_same]
      simp

theorem hcat_slices {α : Type} (z : Mat α) (n s : Nat) (hs : 0 < s)
    (hn : 0 < n) (hz : ∀ r ∈ z, r.length = n) :
    hcatList ((List.range (numSplits n s)).map
      (fun i => sliceCols z (i * s) s)) = z := by
  have hp : 0 < numSplits n s := numSplits_pos hn hs
  have hfs : ((List.range (numSplits n s)).map
      (fun i => fun (r : List α) => (r.drop (i * s)).take s)) ≠ [] := by
    simp only [ne_eq, List.map_eq_nil_iff, List.range_eq_nil]
    omega
  have h1 : (List.range (numSplits n s)).map (fun i => sliceCols z (i * s) s)
      = ((List.range (numSplits n s)).map
          (fun i => fun (r : List α) => (r.drop (i * s)).take s)).map
          (fun f => z.map f) := by
    rw [List.map_map]
    rfl
  rw [h1, hcat_of_maps z _ hfs]
  conv_rhs => rw [← List.map_id z]
  refine List.map_congr_left ?_
  intro r hr
  rw [List.map_map]
  have hfl : ((List.range (numSplits n s)).map
      (fun i => (r.drop (i * s)).take s)).flatten = r := by
    have hfs2 := flatten_slices s hs r
    rw [hz r hr] at hfs2
    exact hfs2
  simpa using hfl

theorem zip3With_length {α : Type} (f : α → α → α → α) :
    ∀ (as bs cs : List α),
    (zip3With f as bs cs).length = min (min as.length bs.length) cs.length := by
  intro as
  induction as with
  | nil => intro bs cs; simp [zip3With]
  | cons a as ih =>
    intro bs cs
    cases bs with
    | nil => simp [zip3With]
    | cons b bs =>
      cases cs with
      | nil => simp [zip3With]
      | cons c cs => simp [zip3With, ih bs cs]; omega

theorem zip3With_getD {α : Type} [Inhabited α] (f : α → α → α → α) :
    ∀ (as bs cs : List α) (j : Nat),
    j < as.length → j < bs.length → j < cs.length →
    (zip3With f as bs cs).getD j default
      = f (as.getD j default) (bs.getD j default) (cs.getD j default) := by
  intro as
  induction as with
  | nil => intro bs cs j h1 _ _; simp at h1
  | cons a as ih =>
    intro bs cs j h1 h2 h3
    cases bs with
    | nil => simp at h2
    | cons b bs =>
      cases cs with
      | nil => simp at h3
      | cons c cs =>
        cases j with
        | zero => simp [zip3With]
        | succ j =>
          simp only [zip3With, List.getD_cons_succ]
          exact ih bs cs j (by simpa using h1) (by simpa using h2)
            (by simpa using h3)

theorem zipWith_getD {α : Type} [Inhabited α] (f : α → α → α) :
    ∀ (as bs : List α) (j : Nat), j < as.length → j < bs.length →
    (List.zipWith f as bs).getD j default
      = f (as.getD j default) (bs.getD j default) := by
  intro as
  induction as with
  | nil => intro bs j h1 _; simp at h1
  | cons a as ih =>
    intro bs j h1 h2
    cases bs with
    | nil => simp at h2
    | cons b bs =>
      cases j with
      | zero => simp
      | succ j =>
        simp only [List.zipWith_cons_cons, List.getD_cons_succ]
        exact ih bs j (by simpa using h1) (by simpa using h2)

theorem getD_map_range {β : Type} [Inhabited β] (g : Nat → β) (n j : Nat)
    (hj : j < n) :
    ((List.range n).map g).getD j default = g j := by
  rw [List.getD_eq_getElem?_getD]
  simp [List.getElem?_map, List.getElem?_range, hj]

theorem ncols_of_rect {α : Type} {M : Mat α} {n f : Nat} (h : Rect M n f)
    (hn : 0 < n) : ncols M = f := by
  obtain ⟨hlen, hrow⟩ := h
  unfold ncols
  cases hM : M with
  | nil => rw [hM] at hlen; simp at hlen; omega
  | cons r rest =>
    rw [hM] at hrow
    simp only [List.headD_cons]
    exact hrow r (by simp)

theorem scaleMat_rect {α : Type} (scale : α → α → α → α) (X : Mat α)
    (mr vr : List α) (f : Nat) (hX : ∀ r ∈ X, r.length = f)
    (hm : f ≤ mr.length) (hv : f ≤ vr.length) :
    ∀ r ∈ scaleMat scale X [mr] [vr], r.length = f := by
  intro r hr
  unfold scaleMat at hr
  simp only [List.headD_cons, List.mem_map] at hr
  obtain ⟨r0, hr0, rfl⟩ := hr
  rw [zip3With_length, hX r0 hr0]
  omega

theorem colOf_scaleMat {α : Type} [Inhabited α] (scale : α → α → α → α)
    (X : Mat α) (mr vr : List α) (j f : Nat) (hj : j < f)
    (hX : ∀ r ∈ X, r.length = f) (hm : f ≤ mr.length) (hv : f ≤ vr.length) :
    colOf (scaleMat scale X [mr] [vr]) j
      = (colOf X j).map
          (fun a => scale a (mr.getD j default) (vr.getD j default)) := by
  unfold colOf scaleMat
  simp only [List.headD_cons, List.map_map]
  refine List.map_congr_left ?_
  intro r hr
  simp only [Function.comp]
  exact zip3With_getD scale r mr vr j (by rw [hX r hr]; exact hj)
    (by omega) (by omega)

theorem sqDev_rect {α : Type} [Field α] (X : Mat α) (mr : List α) (f : Nat)
    (hX : ∀ r ∈ X, r.length = f) (hm : mr.length = f) :
    ∀ r ∈ sqDev X [mr], r.length = f := by
  intro r hr
  unfold sqDev at hr
  simp only [List.headD_cons, List.mem_map] at hr
  obtain ⟨r0, hr0, rfl⟩ := hr
  rw [List.length_zipWith, hX r0 hr0, hm]
  omega

theorem colOf_sqDev {α : Type} [Field α] [Inhabited α] (X : Mat α)
    (mr : List α) (j f : Nat) (hj : j < f) (hX : ∀ r ∈ X, r.length = f)
    (hm : f ≤ mr.length) :
    colOf (sqDev X [mr]) j
      = (colOf X j).map (fun a => (a - mr.getD j default) ^ 2) := by
  unfold colOf sqDev
  simp only [List.headD_cons, List.map_map]
  refine List.map_congr_left ?_
  intro r hr
  simp only [Function.comp]
  exact zipWith_getD _ r mr j (by rw [hX r hr]; exact hj) (by omega)

theorem colOf_length {α : Type} [Inhabited α] (M : Mat α) (j : Nat) :
    (colOf M j).length = M.length := by
  unfold colOf
  simp

theorem mergeData_singleton {α : Type} (b : Block α) :
    mergeData [b] = b.data := rfl

/-- Structure of the `_transform` output slots: the first
`numSplits f bm` slots hold the written column-slices of the scaled
matrix, the remaining slots keep their placeholder. -/
theorem _transform_eq {α : Type} (scale : α → α → α → α)
    (blocks m_blocks v_blocks : List (Block α)) (w n f : Nat)
    (hXr : Rect (mergeData blocks) n f) (hn : 0 < n)
    (hpw : numSplits f blocks.length ≤ w) :
    _transform scale blocks m_blocks v_blocks (List.replicate w none)
      = ((List.range (numSplits f blocks.length)).map (fun i =>
          some (Block.mk
            (sliceCols (scaleMat scale (mergeData blocks) (mergeData m_blocks)
              (mergeData v_blocks)) (i * blocks.length) blocks.length)
            (mergedSparse blocks))))
        ++ List.replicate (w - numSplits f blocks.length) none := by
  have hnc : ncols (mergeData blocks) = f := ncols_of_rect hXr hn
  unfold _transform
  simp only [hnc]
  exact foldl_set_range _ _ _ _ hpw

/-- The written blocks of `_transform`, in slot order. -/
theorem _transform_filterMap {α : Type} (scale : α → α → α → α)
    (blocks m_blocks v_blocks : List (Block α)) (w n f : Nat)
    (hXr : Rect (mergeData blocks) n f) (hn : 0 < n)
    (hpw : numSplits f blocks.length ≤ w) :
    (_transform scale blocks m_blocks v_blocks
        (List.replicate w none)).filterMap id
      = (List.range (numSplits f blocks.length)).map (fun i =>
          Block.mk
            (sliceCols (scaleMat scale (mergeData blocks) (mergeData m_blocks)
              (mergeData v_blocks)) (i * blocks.length) blocks.length)
            (mergedSparse blocks)) := by
  rw [_transform_eq scale blocks m_blocks v_blocks w n f hXr hn hpw]
  have h := filterMap_someMap_replicate
    ((List.range (numSplits f blocks.length)).map (fun i =>
      Block.mk
        (sliceCols (scaleMat scale (mergeData blocks) (mergeData m_blocks)
          (mergeData v_blocks)) (i * blocks.length) blocks.length)
        (mergedSparse blocks)))
    (w - numSplits f blocks.length)
  rw [List.map_map] at h
  exact h

/-- Merging the written blocks of `_transform` reconstructs the scaled
row-band exactly. -/
theorem _transform_collect {α : Type} (scale : α → α → α → α)
    (blocks m_blocks v_blocks : List (Block α)) (w n f : Nat)
    (hXr : Rect (mergeData blocks) n f) (hn : 0 < n) (hf : 0 < f)
    (hbm : 0 < blocks.length)
    (hpw : numSplits f blocks.length ≤ w)
    (hz : ∀ r ∈ scaleMat scale (mergeData blocks) (mergeData m_blocks)
      (mergeData v_blocks), r.length = f) :
    mergeData ((_transform scale blocks m_blocks v_blocks
        (List.replicate w none)).filterMap id)
      = scaleMat scale (mergeData blocks) (mergeData m_blocks)
          (mergeData v_blocks) := by
  rw [_transform_filterMap scale blocks m_blocks v_blocks w n f hXr hn hpw]
  unfold mergeData
  rw [List.map_map]
  have hcomp : ((fun b : Block α => b.data) ∘ (fun i =>
      Block.mk
        (sliceCols (scaleMat scale (hcatList (blocks.map (fun b => b.data)))
          (hcatList (m_blocks.map (fun b => b.data)))
          (hcatList (v_blocks.map (fun b => b.data))))
          (i * blocks.length) blocks.length)
        (mergedSparse blocks)))
      = (fun i => sliceCols (scaleMat scale
          (hcatList (blocks.map (fun b => b.data)))
          (hcatList (m_blocks.map (fun b => b.data)))
          (hcatList (v_blocks.map (fun b => b.data))))
          (i * blocks.length) blocks.length) := rfl
  rw [hcomp]
  exact hcat_slices _ f blocks.length hbm hf hz

/-- `transform` on a fitted scaler: the per-band task results, with the
input's block-shape, shape and sparsity flag. -/
theorem transform_ok {α : Type} (scale : α → α → α → α)
    (sc : StandardScaler α) (m v x : BlockStore α)
    (hm : sc.mean_ = some m) (hv : sc.var_ = some v) :
    sc.transform scale x = Except.ok
      { blocks := x.blocks.map (fun band =>
          _transform scale band (bandBlocks m) (bandBlocks v)
            (List.replicate x.blocksShape.2 none))
        blocksShape := x.blocksShape
        shape := x.shape
        sparse := x.sparse } := by
  unfold StandardScaler.transform
  rw [hm, hv]

theorem sum_map_div {α : Type} [Field α] (l : List α) (g : α → α) (c : α) :
    (l.map (fun a => g a / c)).sum = (l.map g).sum / c := by
  induction l with
  | nil => simp
  | cons a as ih => simp [ih, add_div]

theorem sum_map_sub {α : Type} [Field α] (l : List α) (m : α) :
    (l.map (fun a => a - m)).sum = l.sum - (l.length : α) * m := by
  induction l with
  | nil => simp
  | cons a as ih =>
    simp only [List.map_cons, List.sum_cons, ih, List.length_cons]
    push_cast
    ring

theorem lmean_nonneg (l : List ℝ) (h : ∀ a ∈ l, 0 ≤ a) : 0 ≤ lmean l := by
  unfold lmean
  exact div_nonneg (List.sum_nonneg h) (by positivity)

theorem colVar_nonneg (X : Mat ℝ) (j : Nat) : 0 ≤ colVar X j := by
  unfold colVar
  refine lmean_nonneg _ ?_
  intro a ha
  simp only [List.mem_map] at ha
  obtain ⟨b, _, rfl⟩ := ha
  positivity

/-- Column mean of the standardized matrix vanishes: centering by the
exact column mean makes every column of `(X - mean) / sqrt(var)` sum to
zero, whatever the divisor. -/
theorem scaled_colMean_zero (X : Mat ℝ) (mr vr : List ℝ) (j f : Nat)
    (hj : j < f) (hX : ∀ r ∈ X, r.length = f) (hm : f ≤ mr.length)
    (hv : f ≤ vr.length) (hXne : X ≠ [])
    (hμ : mr.getD j 0 = colMean X j) :
    colMean (scaleMat realScale X [mr] [vr]) j = 0 := by
  unfold colMean
  rw [colOf_scaleMat realScale X mr vr j f hj hX hm hv]
  unfold realScale
  unfold lmean
  rw [show ((colOf X j).map (fun a =>
      (a - mr.getD j default) / Real.sqrt (vr.getD j default)))
      = ((colOf X j).map (fun a =>
          (fun b => b - mr.getD j default) a / Real.sqrt (vr.getD j default)))
      from rfl]
  rw [sum_map_div, sum_map_sub]
  have hlen : (0:ℝ) < ((colOf X j).length : ℝ) := by
    rw [colOf_length]
    have : 0 < X.length := List.length_pos.mpr hXne
    exact_mod_cast this
  have hzero : (colOf X j).sum - ((colOf X j).length : ℝ) * mr.getD j default
      = 0 := by
    have hd : (mr.getD j default) = colMean X j := hμ
    rw [hd]
    unfold colMean lmean
    field_simp
  rw [List.length_map, hzero]
  simp

/-- Column variance of the standardized matrix is one, provided the
divisor is the square root of the exact column variance and that variance
is nonzero. -/
theorem scaled_colVar_one (X : Mat ℝ) (mr vr : List ℝ) (j f : Nat)
    (hj : j < f) (hX : ∀ r ∈ X, r.length = f) (hm : f ≤ mr.length)
    (hv : f ≤ vr.length) (hXne : X ≠ [])
    (hμ : mr.getD j 0 = colMean X j)
    (hvj : vr.getD j 0 = colVar X j) (hvne : colVar X j ≠ 0) :
    colVar (scaleMat realScale X [mr] [vr]) j = 1 := by
  have hvpos : 0 < colVar X j := lt_of_le_of_ne (colVar_nonneg X j)
    (Ne.symm hvne)
  have hmean0 : colMean (scaleMat realScale X [mr] [vr]) j = 0 :=
    scaled_colMean_zero X mr vr j f hj hX hm hv hXne hμ
  unfold colVar
  rw [hmean0, colOf_scaleMat realScale X mr vr j f hj hX hm hv, List.map_map]
  have hvj' : vr.getD j default = colVar X j := hvj
  have hpt : ∀ a : ℝ,
      ((fun b => (b - 0) ^ 2) ∘ fun a =>
        realScale a (mr.getD j default) (vr.getD j default)) a
      = (fun b => (b - mr.getD j default) ^ 2) a / colVar X j := by
    intro a
    simp only [Function.comp, sub_zero, realScale]
    rw [div_pow, Real.sq_sqrt (by rw [hvj']; exact le_of_lt hvpos)]
    rw [hvj']
  rw [List.map_congr_left (fun a _ => hpt a)]
  unfold lmean
  rw [sum_map_div, List.length_map]
  have hframe : ((colOf X j).map (fun b => (b - mr.getD j default) ^ 2)).sum
      / colVar X j / ((colOf X j).length : ℝ)
      = (((colOf X j).map (fun b => (b - mr.getD j default) ^ 2)).sum
          / ((colOf X j).length : ℝ)) / colVar X j := by
    ring
  rw [hframe]
  have hcv : ((colOf X j).map (fun b => (b - mr.getD j default) ^ 2)).sum
      / ((colOf X j).length : ℝ)
      = colVar X j := by
    have hd : (mr.getD j default) = colMean X j := hμ
    rw [hd]
    unfold colVar lmean
    rw [List.length_map]
  rw [hcv]
  exact div_self hvne

theorem collect_single {α : Type} (x : BlockStore α) (band : List (Block α))
    (h : x.blocks = [band]) : collect x = mergeData band := by
  unfold collect
  rw [h]
  simp

theorem collect_rect {α : Type} (x : BlockStore α) (hWF : WF x) :
    ∀ r ∈ collect x, r.length = x.shape.2 := by
  intro r hr
  unfold collect at hr
  rw [List.mem_flatten] at hr
  obtain ⟨Mb, hMb, hrMb⟩ := hr
  rw [List.mem_map] at hMb
  obtain ⟨band, hband, rfl⟩ := hMb
  exact hWF.bandRect band hband r hrMb

theorem map_getD_range {β : Type} (d : β) :
    ∀ (l : List β), (List.range l.length).map (fun i => l.getD i d) = l := by
  intro l
  induction l with
  | nil => simp
  | cons a as ih =>
    rw [List.length_cons, List.range_succ_eq_map, List.map_cons, List.map_map]
    have h2 : List.map ((fun i => (a :: as).getD i d) ∘ (· + 1))
        (List.range as.length)
        = List.map (fun i => as.getD i d) (List.range as.length) :=
      List.map_congr_left (fun i _ => by simp [Function.comp])
    rw [h2, ih]
    rfl

theorem insertByKey_perm {α : Type} (key : α → Nat) (a : α) (l : List α) :
    (insertByKey key a l).Perm (a :: l) := by
  induction l with
  | nil => exact List.Perm.refl _
  | cons b bs ih =>
    unfold insertByKey
    by_cases h : key a ≤ key b
    · rw [if_pos h]
    · rw [if_neg h]
      have h1 : (b :: insertByKey key a bs).Perm (b :: a :: bs) :=
        List.Perm.cons b ih
      exact h1.trans (List.Perm.swap a b bs)

theorem sortByKey_perm {α : Type} (key : α → Nat) (l : List α) :
    (sortByKey key l).Perm l := by
  induction l with
  | nil => exact List.Perm.refl _
  | cons a as ih =>
    unfold sortByKey
    exact (insertByKey_perm key a (sortByKey key as)).trans
      (List.Perm.cons a ih)

theorem permFromSeed_perm (seed n : Nat) :
    (permFromSeed seed n).Perm (List.range n) :=
  sortByKey_perm _ _

theorem shuffleRows_perm {α : Type} (seed : Nat) (M : Mat α) :
    (shuffleRows seed M).Perm M := by
  unfold shuffleRows
  have h1 : ((permFromSeed seed M.length).map (fun i => M.getD i [])).Perm
      ((List.range M.length).map (fun i => M.getD i [])) :=
    List.Perm.map _ (permFromSeed_perm seed M.length)
  rw [map_getD_range [] M] at h1
  exact h1

theorem mem_shuffleRows {α : Type} (seed : Nat) (M : Mat α) (r : List α)
    (hr : r ∈ shuffleRows seed M) : r ∈ M :=
  (shuffleRows_perm seed M).mem_iff.mp hr

theorem chunksOf_length {β : Type} (s : Nat) (l : List β) :
    (chunksOf s l).length = numSplits l.length s := by
  unfold chunksOf
  simp

theorem mem_chunksOf {β : Type} {s : Nat} {l : List β} {c : List β}
    (hc : c ∈ chunksOf s l) :
    ∃ i, i < numSplits l.length s ∧ c = (l.drop (i * s)).take s := by
  unfold chunksOf at hc
  rw [List.mem_map] at hc
  obtain ⟨i, hi, rfl⟩ := hc
  exact ⟨i, List.mem_range.mp hi, rfl⟩

theorem chunksOf_sub {β : Type} {s : Nat} {l : List β} {c : List β}
    (hc : c ∈ chunksOf s l) : ∀ a ∈ c, a ∈ l := by
  obtain ⟨i, _, rfl⟩ := mem_chunksOf hc
  intro a ha
  exact List.mem_of_mem_drop (List.mem_of_mem_take ha)

theorem chunksOf_len_le {β : Type} {s : Nat} {l : List β} {c : List β}
    (hc : c ∈ chunksOf s l) : c.length ≤ s := by
  obtain ⟨i, _, rfl⟩ := mem_chunksOf hc
  simp [List.length_take]

theorem numSplits_mul (p s : Nat) (hs : 0 < s) : numSplits (p * s) s = p := by
  unfold numSplits
  rcases Nat.eq_zero_or_pos p with hp | hp
  · subst hp
    simp
    exact Nat.div_eq_of_lt (by omega)
  · have h : p * s + s - 1 = (s - 1) + p * s := by
      have : 1 ≤ p * s := by
        calc 1 ≤ 1 * 1 := by omega
          _ ≤ p * s := Nat.mul_le_mul hp hs
      omega
    rw [h, Nat.add_mul_div_right _ _ hs, Nat.div_eq_of_lt (by omega)]
    omega

theorem numSplits_le_mono {a b s : Nat} (h : a ≤ b) :
    numSplits a s ≤ numSplits b s := by
  unfold numSplits
  exact Nat.div_le_div_right (by omega)

theorem gt_pred_mul_of_numSplits {len p s : Nat} (hs : 0 < s)
    (hp : numSplits len s = p) (hpos : 0 < p) : (p - 1) * s < len := by
  by_contra hcon
  push_neg at hcon
  have h1 : numSplits len s ≤ numSplits ((p - 1) * s) s := numSplits_le_mono hcon
  rw [numSplits_mul _ _ hs] at h1
  omega

theorem chunksOf_ne_nil {β : Type} {s : Nat} {l : List β} {c : List β}
    (hs : 0 < s) (hc : c ∈ chunksOf s l) : c ≠ [] := by
  obtain ⟨i, hi, rfl⟩ := mem_chunksOf hc
  have hlen : 0 < l.length :=
    pos_of_numSplits_pos (n := l.length) (s := s) (by omega)
  have hil : i * s < l.length := by
    have h1 : i ≤ numSplits l.length s - 1 := by omega
    have h2 : (numSplits l.length s - 1) * s < l.length :=
      gt_pred_mul_of_numSplits hs rfl (by omega)
    have h3 : i * s ≤ (numSplits l.length s - 1) * s :=
      Nat.mul_le_mul_right s h1
    omega
  intro hnil
  have htake : ((l.drop (i * s)).take s).length = 0 := by rw [hnil]; rfl
  rw [List.length_take, List.length_drop] at htake
  omega

/-- Collecting a grid produced by `splitGrid` reconstructs the matrix. -/
theorem collect_splitGrid {α : Type} (M : Mat α) (br bc : Nat) (sp : Bool)
    (f : Nat) (hbr : 0 < br) (hbc : 0 < bc) (hf : 0 < f)
    (hrect : ∀ r ∈ M, r.length = f) :
    ((splitGrid M br bc sp).map (fun band => mergeData band)).flatten = M := by
  unfold splitGrid
  rw [List.map_map]
  have hband : ∀ chunk ∈ chunksOf br M,
      mergeData ((List.range (numSplits (ncols chunk) bc)).map
        (fun i => Block.mk (sliceCols chunk (i * bc) bc) sp)) = chunk := by
    intro chunk hchunk
    have hrows : ∀ r ∈ chunk, r.length = f :=
      fun r hr => hrect r (chunksOf_sub hchunk r hr)
    have hne : chunk ≠ [] := chunksOf_ne_nil hbr hchunk
    have hnc : ncols chunk = f := by
      cases hch : chunk with
      | nil => exact absurd hch hne
      | cons r rest =>
        unfold ncols
        simp only [List.headD_cons]
        exact hrows r (by rw [hch]; exact List.mem_cons_self r rest)
    rw [hnc]
    unfold mergeData
    rw [List.map_map]
    have hcomp : ((fun b : Block α => b.data) ∘
        (fun i => Block.mk (sliceCols chunk (i * bc) bc) sp))
        = fun i => sliceCols chunk (i * bc) bc := rfl
    rw [hcomp]
    exact hcat_slices chunk f bc hbc hf hrows
  calc (List.map ((fun band => mergeData band) ∘
          (fun chunk => (List.range (numSplits (ncols chunk) bc)).map
            (fun i => Block.mk (sliceCols chunk (i * bc) bc) sp)))
        (chunksOf br M)).flatten
      = (List.map (fun chunk => chunk) (chunksOf br M)).flatten := by
        congr 1
        exact List.map_congr_left (fun chunk hchunk => hband chunk hchunk)
    _ = M := by
        rw [List.map_id_fun']
        exact chunksOf_flatten br hbr M

instance : Inhabited FP := ⟨FP.num 0⟩

theorem mergedSparse_eq {α : Type} (x : BlockStore α) (hWF : WF x)
    (band : List (Block α)) (hband : band ∈ x.blocks) :
    mergedSparse band = x.sparse := by
  have hne := hWF.bandNE band hband
  cases hb : band with
  | nil => exact absurd hb hne
  | cons b bs =>
    unfold mergedSparse
    simp only [List.headD_cons]
    exact hWF.sparseU band hband b (by rw [hb]; exact List.mem_cons_self b bs)

/-- A small concrete dense store (2 × 2, one band, one block) used to
evaluate the theorems on explicit inputs. -/
def sampleStore : BlockStore ℚ :=
  { blocks := [[⟨[[1, 2], [3, 4]], false⟩]]
    blocksShape := (2, 2)
    shape := (2, 2)
    sparse := false }

/-- A concrete fitted scaler over `ℚ` matching `sampleStore`'s width. -/
def sampleScaler : StandardScaler ℚ :=
  { mean_ := some
      { blocks := [[⟨[[2, 3]], false⟩]]
        blocksShape := (1, 2), shape := (1, 2), sparse := false }
    var_ := some
      { blocks := [[⟨[[1, 1]], false⟩]]
        blocksShape := (1, 2), shape := (1, 2), sparse := false } }

/-- A concrete dataset over `ℚ` with two subsets and subset size 2. -/
def sampleDataset : Dataset ℚ :=
  { subsets := [[[1], [2]], [[3]]], subsetSize := 2, sparse := false }

/-- C3: `fit_transform(x)` performs exactly `fit(x)` followed by
`transform(x)` on the same input, and its result is identical to the
result of the two-call sequence. -/
theorem C3_fit_transform_is_fit_then_transform {α : Type} [Field α]
    [Inhabited α] (scale : α → α → α → α) (sc : StandardScaler α)
    (x : BlockStore α) :
    sc.fit_transform scale x = (sc.fit x).transform scale x := rfl

/-- C2: on a scaler on which `fit` has never completed — equivalently,
whenever the fitted mean or the fitted variance is absent — `transform`
fails with the not-fitted error, and only then; in particular a freshly
constructed scaler fails. -/
theorem C2_unfitted_transform_fails {α : Type} (scale : α → α → α → α)
    (x : BlockStore α) :
    (∀ sc : StandardScaler α,
      (sc.mean_ = none ∨ sc.var_ = none) ↔
        sc.transform scale x = Except.error ScalerError.notFitted)
    ∧ (StandardScaler.init (α := α)).transform scale x
        = Except.error ScalerError.notFitted := by
  constructor
  · intro sc
    obtain ⟨mo, vo⟩ := sc
    cases mo <;> cases vo <;>
      simp [StandardScaler.transform]
  · rfl

/-- C10: for a well-formed input, the block-splitting loop of the
transform task assigns only slot indices strictly below the number of
pre-allocated output slots (`x._blocks_shape[1]` per row-band). -/
theorem C10_write_indices_in_bounds {α : Type} (x : BlockStore α)
    (hWF : WF x) :
    ∀ band ∈ x.blocks,
      ∀ i ∈ List.range (numSplits (ncols (mergeData band)) band.length),
        i < (List.replicate x.blocksShape.2
          (none : Option (Block α))).length := by
  intro band hband i hi
  rw [List.length_replicate]
  rw [List.mem_range] at hi
  have hX := hWF.bandRect band hband
  have hne := hWF.bandRowsNE band hband
  have hnc : ncols (mergeData band) = x.shape.2 :=
    ncols_of_rect ⟨rfl, hX⟩ (List.length_pos.mpr hne)
  rw [hnc, hWF.bandLen band hband] at hi
  have hb := numSplits_numSplits_le (n := x.shape.2) hWF.wpos
  omega

theorem C10_write_indices_in_bounds_witness :
    0 < (List.replicate sampleStore.blocksShape.2
      (none : Option (Block ℚ))).length :=
  C10_write_indices_in_bounds sampleStore
    ⟨by decide, by decide, by decide, by decide, by decide, by decide,
     by decide⟩
    [⟨[[1, 2], [3, 4]], false⟩] (by decide) 0 (by decide)

/-- C7: transform preserves the sparsity class: the output store's flag
equals the input's and every written output block carries the input's
class (compressed-sparse-row constructor for sparse merged input, dense
constructor otherwise); the spec-modelled `shuffle` and `resample`
likewise preserve sparsity. -/
theorem C7_sparsity_preserved {α : Type} (scale : α → α → α → α)
    (sc : StandardScaler α) (m v x : BlockStore α)
    (hm : sc.mean_ = some m) (hv : sc.var_ = some v) (hWF : WF x)
    (seed k : Nat) (d : Dataset α) :
    ∃ out, sc.transform scale x = Except.ok out
      ∧ out.sparse = x.sparse
      ∧ (∀ band ∈ out.blocks, ∀ ob ∈ band, ∀ b : Block α,
          ob = some b → b.sparse = x.sparse)
      ∧ (shuffle seed x).sparse = x.sparse
      ∧ (∀ band ∈ (shuffle seed x).blocks, ∀ b ∈ band, b.sparse = x.sparse)
      ∧ (resample d k seed).sparse = d.sparse := by
  refine ⟨_, transform_ok scale sc m v x hm hv, rfl, ?_, rfl, ?_, rfl⟩
  · intro band hband ob hob b hobb
    simp only [List.mem_map] at hband
    obtain ⟨band0, hband0, rfl⟩ := hband
    have hX := hWF.bandRect band0 hband0
    have hne := hWF.bandRowsNE band0 hband0
    have hXr : Rect (mergeData band0) (mergeData band0).length x.shape.2 :=
      ⟨rfl, hX⟩
    have hnpos : 0 < (mergeData band0).length := List.length_pos.mpr hne
    have hpw : numSplits x.shape.2 band0.length ≤ x.blocksShape.2 := by
      rw [hWF.bandLen band0 hband0]
      exact numSplits_numSplits_le hWF.wpos
    rw [_transform_eq scale band0 (bandBlocks m) (bandBlocks v)
      x.blocksShape.2 (mergeData band0).length x.shape.2 hXr hnpos hpw] at hob
    rw [List.mem_append] at hob
    rcases hob with hob | hob
    · simp only [List.mem_map] at hob
      obtain ⟨i, _, hio⟩ := hob
      rw [← hio] at hobb
      have hb : b = Block.mk
          (sliceCols (scaleMat scale (mergeData band0)
            (mergeData (bandBlocks m)) (mergeData (bandBlocks v)))
            (i * band0.length) band0.length)
          (mergedSparse band0) := (Option.some.inj hobb).symm
      rw [hb]
      exact mergedSparse_eq x hWF band0 hband0
    · have : ob = none := List.eq_of_mem_replicate hob
      rw [this] at hobb
      exact absurd hobb (by simp)
  · intro band hband b hb
    simp only [shuffle, splitGrid, List.mem_map] at hband
    obtain ⟨chunk, _, rfl⟩ := hband
    simp only [List.mem_map] at hb
    obtain ⟨i, _, hib⟩ := hb
    rw [← hib]

theorem C7_sparsity_preserved_witness :
    (sampleScaler.transform (fun a m v => (a - m) / v) sampleStore).map
        ScaledStore.sparse = Except.ok sampleStore.sparse
    ∧ (shuffle 0 sampleStore).sparse = sampleStore.sparse
    ∧ (resample sampleDataset 1 0).sparse = sampleDataset.sparse := by
  obtain ⟨out, h1, h2, _, h4, _, h6⟩ :=
    C7_sparsity_preserved (fun a m v => (a - m) / v) sampleScaler _ _
      sampleStore rfl rfl
      ⟨by decide, by decide, by decide, by decide, by decide, by decide,
       by decide⟩ 0 1 sampleDataset
  refine ⟨?_, h4, h6⟩
  rw [h1]
  simp [Except.map, h2]

/-- C6 (amended): transform re-splits each scaled row-band into
`⌈n_cols / bm⌉` column-blocks — `bm` being the number of the band's input
column-blocks — each output block `i` holding columns
`[i*bm, (i+1)*bm)` of the scaled band, the remaining pre-allocated slots
staying unwritten; the returned store carries the input's block-shape and
global shape. -/
theorem C6_resplit_structure {α : Type} (scale : α → α → α → α)
    (sc : StandardScaler α) (m v x : BlockStore α)
    (hm : sc.mean_ = some m) (hv : sc.var_ = some v) (hWF : WF x) :
    sc.transform scale x = Except.ok
      { blocks := x.blocks.map (fun band =>
          ((List.range (numSplits x.shape.2 band.length)).map (fun i =>
            some (Block.mk (sliceCols (scaleMat scale (mergeData band)
              (mergeData (bandBlocks m)) (mergeData (bandBlocks v)))
              (i * band.length) band.length) (mergedSparse band))))
          ++ List.replicate
              (x.blocksShape.2 - numSplits x.shape.2 band.length) none)
        blocksShape := x.blocksShape
        shape := x.shape
        sparse := x.sparse } := by
  rw [transform_ok scale sc m v x hm hv]
  have hblocks : x.blocks.map (fun band =>
      _transform scale band (bandBlocks m) (bandBlocks v)
        (List.replicate x.blocksShape.2 none))
      = x.blocks.map (fun band =>
        ((List.range (numSplits x.shape.2 band.length)).map (fun i =>
          some (Block.mk (sliceCols (scaleMat scale (mergeData band)
            (mergeData (bandBlocks m)) (mergeData (bandBlocks v)))
            (i * band.length) band.length) (mergedSparse band))))
        ++ List.replicate
            (x.blocksShape.2 - numSplits x.shape.2 band.length) none) := by
    refine List.map_congr_left ?_
    intro band hband
    have hX := hWF.bandRect band hband
    have hne := hWF.bandRowsNE band hband
    have hXr : Rect (mergeData band) (mergeData band).length x.shape.2 :=
      ⟨rfl, hX⟩
    have hnpos : 0 < (mergeData band).length := List.length_pos.mpr hne
    have hpw : numSplits x.shape.2 band.length ≤ x.blocksShape.2 := by
      rw [hWF.bandLen band hband]
      exact numSplits_numSplits_le hWF.wpos
    exact _transform_eq scale band (bandBlocks m) (bandBlocks v)
      x.blocksShape.2 (mergeData band).length x.shape.2 hXr hnpos hpw
  rw [hblocks]

theorem C6_resplit_structure_witness :
    sampleScaler.transform (fun a m v => (a - m) / v) sampleStore
      = Except.ok
        { blocks := sampleStore.blocks.map (fun band =>
            ((List.range (numSplits sampleStore.shape.2 band.length)).map
              (fun i => some (Block.mk (sliceCols
                (scaleMat (fun a m v => (a - m) / v) (mergeData band)
                  (mergeData (bandBlocks
                    ({ blocks := [[⟨[[2, 3]], false⟩]]
                       blocksShape := (1, 2), shape := (1, 2)
                       sparse := false } : BlockStore ℚ)))
                  (mergeData (bandBlocks
                    ({ blocks := [[⟨[[1, 1]], false⟩]]
                       blocksShape := (1, 2), shape := (1, 2)
                       sparse := false } : BlockStore ℚ))))
                (i * band.length) band.length) (mergedSparse band))))
            ++ List.replicate (sampleStore.blocksShape.2
                - numSplits sampleStore.shape.2 band.length) none)
          blocksShape := sampleStore.blocksShape
          shape := sampleStore.shape
          sparse := sampleStore.sparse } :=
  C6_resplit_structure (fun a m v => (a - m) / v) sampleScaler _ _
    sampleStore rfl rfl
    ⟨by decide, by decide, by decide, by decide, by decide, by decide,
     by decide⟩

/-- A store whose single row-band has three column-blocks of nominal
width 2 over six columns. -/
def cx6Store : BlockStore ℚ :=
  { blocks := [[⟨[[1, 2]], false⟩, ⟨[[3, 4]], false⟩, ⟨[[5, 6]], false⟩]]
    blocksShape := (1, 2)
    shape := (1, 6)
    sparse := false }

/-- A fitted scaler matching `cx6Store`'s six features. -/
def cx6Scaler : StandardScaler ℚ :=
  { mean_ := some
      { blocks := [[⟨[[0, 0, 0, 0, 0, 0]], false⟩]]
        blocksShape := (1, 6), shape := (1, 6), sparse := false }
    var_ := some
      { blocks := [[⟨[[1, 1, 1, 1, 1, 1]], false⟩]]
        blocksShape := (1, 6), shape := (1, 6), sparse := false } }

/-- C6 counterexample: on a row-band with three input column-blocks the
transform task writes only two output column-blocks
(`⌈6 / 3⌉ = 2 ≠ 3`), so the output does not have the same number of
column-blocks as the input row-band. -/
theorem C6_cx_block_count_differs :
    ∃ out, cx6Scaler.transform (fun a m v => (a - m) / v) cx6Store
        = Except.ok out
      ∧ ((out.blocks.headD []).filterMap id).length = 2
      ∧ (cx6Store.blocks.headD []).length = 3 := by
  refine ⟨_, rfl, ?_, ?_⟩ <;> decide

/-- C4: during fit, exactly one `_compute_var` task is submitted per
row-band, receiving that row-band's blocks together with the mean store's
blocks, and it computes `mean((X - mean)^2, axis=0)` over the merged
blocks — entry `j` is the arithmetic mean, over the band's rows, of the
squared deviation of column `j` from the global column mean — producing a
`(1, n_features)` result. -/
theorem C4_one_variance_task_per_band {α : Type} [Field α] [Inhabited α]
    (sc : StandardScaler α) (x : BlockStore α) (hWF : WF x) :
    ∃ mean varSt, (sc.fit x).mean_ = some mean
      ∧ (sc.fit x).var_ = some varSt
      ∧ varSt.blocks
          = [x.blocks.map (fun band => _compute_var band (bandBlocks mean))]
      ∧ (x.blocks.map (fun band =>
          _compute_var band (bandBlocks mean))).length = x.blocks.length
      ∧ ∀ band ∈ x.blocks,
          (_compute_var band (bandBlocks mean)).data
            = [(List.range x.shape.2).map (fun j =>
                lmean ((colOf (mergeData band) j).map
                  (fun a => (a - colMean (collect x) j) ^ 2)))]
          ∧ Rect (_compute_var band (bandBlocks mean)).data 1 x.shape.2 := by
  refine ⟨applyAlongAxisMean x, _, rfl, rfl, rfl, by simp, ?_⟩
  intro band hband
  have hX := hWF.bandRect band hband
  have hne := hWF.bandRowsNE band hband
  have hnc : ncols (mergeData band) = x.shape.2 :=
    ncols_of_rect ⟨rfl, hX⟩ (List.length_pos.mpr hne)
  have hmerge : mergeData (bandBlocks (applyAlongAxisMean x))
      = [(List.range x.shape.2).map (fun j => colMean (collect x) j)] := rfl
  have hdata : (_compute_var band (bandBlocks (applyAlongAxisMean x))).data
      = [(List.range x.shape.2).map (fun j =>
          lmean ((colOf (mergeData band) j).map
            (fun a => (a - colMean (collect x) j) ^ 2)))] := by
    unfold _compute_var
    simp only [hmerge, hnc]
    congr 1
    refine List.map_congr_left ?_
    intro j hj
    rw [List.mem_range] at hj
    rw [colOf_sqDev (mergeData band)
      ((List.range x.shape.2).map (fun j => colMean (collect x) j))
      j x.shape.2 hj hX (by simp)]
    rw [getD_map_range _ _ _ hj]
  refine ⟨hdata, ?_⟩
  rw [hdata]
  constructor
  · rfl
  · intro row hrow
    simp only [List.mem_singleton] at hrow
    rw [hrow]
    simp

theorem C4_one_variance_task_per_band_witness :
    (((StandardScaler.init (α := ℚ)).fit sampleStore).var_.map
      (fun v => (v.blocks.headD []).length))
      = some sampleStore.blocks.length := by
  obtain ⟨mean, varSt, _, hv, hblocks, hlen, _⟩ :=
    C4_one_variance_task_per_band (StandardScaler.init (α := ℚ)) sampleStore
      ⟨by decide, by decide, by decide, by decide, by decide, by decide,
       by decide⟩
  rw [hv, Option.map_some', hblocks]
  simp only [List.headD_cons]
  rw [hlen]

theorem getD_map_range_any {β : Type} (g : Nat → β) (d : β) (n j : Nat)
    (hj : j < n) : ((List.range n).map g).getD j d = g j := by
  rw [List.getD_eq_getElem?_getD]
  simp [List.getElem?_map, List.getElem?_range, hj]

/-- C9: for `1 ≤ k ≤` total rows, `resample` returns exactly `k` rows,
partitioned per the dataset's subset-size policy — `⌈k / subsetSize⌉`
subsets, all full except possibly the final one — and `k = 1` yields
exactly one subset of exactly one row. -/
theorem C9_resample_counts {α : Type} (d : Dataset α) (k seed : Nat)
    (hs : 0 < d.subsetSize) (hk : 1 ≤ k) (hkn : k ≤ d.nRows) :
    (resample d k seed).nRows = k
    ∧ (resample d k seed).subsets.length = numSplits k d.subsetSize
    ∧ (∀ sub ∈ (resample d k seed).subsets, sub.length ≤ d.subsetSize)
    ∧ (∀ i, i + 1 < numSplits k d.subsetSize →
        ((resample d k seed).subsets.getD i []).length = d.subsetSize)
    ∧ (k = 1 → (resample d k seed).subsets.length = 1
        ∧ ((resample d k seed).subsets.headD []).length = 1) := by
  have hsampled : (((List.range k).map
      (fun i => lcgKey seed i % d.subsets.flatten.length)).map
      (fun i => d.subsets.flatten.getD i [])).length = k := by
    simp
  have hsubsets : (resample d k seed).subsets
      = chunksOf d.subsetSize (((List.range k).map
          (fun i => lcgKey seed i % d.subsets.flatten.length)).map
          (fun i => d.subsets.flatten.getD i [])) := rfl
  have htotal : (resample d k seed).nRows = k := by
    unfold Dataset.nRows
    rw [hsubsets, chunksOf_flatten d.subsetSize hs, hsampled]
  have hcount : (resample d k seed).subsets.length
      = numSplits k d.subsetSize := by
    rw [hsubsets, chunksOf_length, hsampled]
  refine ⟨htotal, hcount, ?_, ?_, ?_⟩
  · intro sub hsub
    rw [hsubsets] at hsub
    exact chunksOf_len_le hsub
  · intro i hi
    rw [hsubsets]
    unfold chunksOf
    rw [hsampled]
    rw [getD_map_range_any _ _ _ _ (by omega)]
    rw [List.length_take, List.length_drop, hsampled]
    have hfull : (i + 1) * d.subsetSize < k := by
      have h1 : i + 1 ≤ numSplits k d.subsetSize - 1 := by omega
      have h2 : (numSplits k d.subsetSize - 1) * d.subsetSize < k :=
        gt_pred_mul_of_numSplits hs rfl (by omega)
      have h3 : (i + 1) * d.subsetSize
          ≤ (numSplits k d.subsetSize - 1) * d.subsetSize :=
        Nat.mul_le_mul_right _ h1
      omega
    have hexp : (i + 1) * d.subsetSize = i * d.subsetSize + d.subsetSize := by
      ring
    omega
  · intro hk1
    subst hk1
    have h1 : numSplits 1 d.subsetSize = 1 := numSplits_eq_one (by omega) hs
    rw [hcount, h1]
    refine ⟨rfl, ?_⟩
    obtain ⟨c, hc⟩ := List.length_eq_one.mp (by rw [hcount, h1])
    have hflat : (resample d 1 seed).subsets.flatten.length = 1 := htotal
    rw [hc] at hflat ⊢
    simp only [List.headD_cons]
    simpa using hflat

theorem C9_resample_counts_witness :
    (resample sampleDataset 1 0).nRows = 1
    ∧ (resample sampleDataset 1 0).subsets.length = 1
    ∧ ((resample sampleDataset 1 0).subsets.headD []).length = 1 := by
  obtain ⟨h1, _, _, _, h5⟩ :=
    C9_resample_counts sampleDataset 1 0 (by decide) (by decide) (by decide)
  exact ⟨h1, (h5 rfl).1, (h5 rfl).2⟩

/-- C8: for every seed, shuffle preserves the row multiset — the rows of
the shuffled store are a permutation of the rows of the input, never a
resample — and the output store has the same shape as the input. -/
theorem C8_shuffle_preserves_row_multiset {α : Type} (seed : Nat)
    (x : BlockStore α) (hWF : WF x) (hbr : 0 < x.blocksShape.1)
    (hf : 0 < x.shape.2) :
    (collect (shuffle seed x)).Perm (collect x)
    ∧ (shuffle seed x).shape = x.shape := by
  constructor
  · have hrect : ∀ r ∈ shuffleRows seed (collect x), r.length = x.shape.2 :=
      fun r hr => collect_rect x hWF r (mem_shuffleRows seed _ r hr)
    have hc : collect (shuffle seed x) = shuffleRows seed (collect x) :=
      collect_splitGrid (shuffleRows seed (collect x)) x.blocksShape.1
        x.blocksShape.2 x.sparse x.shape.2 hbr hWF.wpos hf hrect
    rw [hc]
    exact shuffleRows_perm seed (collect x)
  · rfl

theorem C8_shuffle_preserves_row_multiset_witness :
    (collect (shuffle 7 sampleStore)).Perm (collect sampleStore)
    ∧ (shuffle 7 sampleStore).shape = sampleStore.shape :=
  C8_shuffle_preserves_row_multiset 7 sampleStore
    ⟨by decide, by decide, by decide, by decide, by decide, by decide,
     by decide⟩ (by decide) (by decide)

instance {α : Type} (M : Mat α) (r c : Nat) : Decidable (Rect M r c) := by
  unfold Rect
  infer_instance

theorem getD_mem_of_lt {β : Type} (l : List β) (i : Nat) (d : β)
    (hi : i < l.length) : l.getD i d ∈ l := by
  rw [List.getD_eq_getElem?_getD, List.getElem?_eq_getElem hi]
  exact List.getElem_mem hi

theorem scaleMat_entry {α : Type} [Inhabited α] (scale : α → α → α → α)
    (X : Mat α) (mr vr : List α) (i j f : Nat)
    (hi : i < X.length) (hj : j < f) (hX : ∀ r ∈ X, r.length = f)
    (hm : f ≤ mr.length) (hv : f ≤ vr.length) :
    ((scaleMat scale X [mr] [vr]).getD i []).getD j default
      = scale ((X.getD i []).getD j default) (mr.getD j default)
          (vr.getD j default) := by
  unfold scaleMat
  simp only [List.headD_cons]
  have hmap : (X.map (fun r => zip3With scale r mr vr)).getD i []
      = zip3With scale (X.getD i []) mr vr := by
    rw [List.getD_eq_getElem?_getD, List.getElem?_map,
      List.getElem?_eq_getElem hi]
    rw [List.getD_eq_getElem?_getD, List.getElem?_eq_getElem hi]
    rfl
  rw [hmap]
  have hlen : (X.getD i []).length = f :=
    hX (X.getD i []) (getD_mem_of_lt X i [] hi)
  exact zip3With_getD scale _ mr vr j (by omega) (by omega) (by omega)

/-- C5: over IEEE-style extended values the transform task computes
`scaled = (x - mean) / sqrt(var)` entrywise with no special-casing of
zero variance: merging the written output blocks reproduces the scaled
matrix exactly (the values are preserved faithfully), and an entry of a
feature whose variance is zero becomes `+inf`, `-inf` or `nan` through
the division by zero. -/
theorem C5_zero_variance_entries {blocks m_blocks v_blocks : List (Block FP)}
    {w n f i j : Nat} {mr vr : List FP} {a m0 : ℚ}
    (hXr : Rect (mergeData blocks) n f) (hn : 0 < n) (hf : 0 < f)
    (hbm : 0 < blocks.length) (hpw : numSplits f blocks.length ≤ w)
    (hM : mergeData m_blocks = [mr]) (hV : mergeData v_blocks = [vr])
    (hm : f ≤ mr.length) (hv : f ≤ vr.length) (hi : i < n) (hj : j < f)
    (ha : ((mergeData blocks).getD i []).getD j default = FP.num a)
    (hm0 : mr.getD j default = FP.num m0)
    (hv0 : vr.getD j default = FP.num 0) :
    mergeData ((_transform fpScale blocks m_blocks v_blocks
        (List.replicate w none)).filterMap id)
      = scaleMat fpScale (mergeData blocks) [mr] [vr]
    ∧ ((scaleMat fpScale (mergeData blocks) [mr] [vr]).getD i []).getD j
        default = fpScale (FP.num a) (FP.num m0) (FP.num 0)
    ∧ (fpScale (FP.num a) (FP.num m0) (FP.num 0)).isFinite = false := by
  have hilen : i < (mergeData blocks).length := by
    rw [hXr.1]; exact hi
  refine ⟨?_, ?_, ?_⟩
  · have hz : ∀ r ∈ scaleMat fpScale (mergeData blocks)
        (mergeData m_blocks) (mergeData v_blocks), r.length = f := by
      rw [hM, hV]
      exact scaleMat_rect fpScale (mergeData blocks) mr vr f hXr.2 hm hv
    have hcol := _transform_collect fpScale blocks m_blocks v_blocks w n f
      hXr hn hf hbm hpw hz
    rw [hM, hV] at hcol
    exact hcol
  · rw [scaleMat_entry fpScale (mergeData blocks) mr vr i j f hilen hj
      hXr.2 hm hv, ha, hm0, hv0]
  · have hsq : FP.sqrt (FP.num 0) = FP.num 0 := by decide
    have hsub : FP.sub (FP.num a) (FP.num m0) = FP.num (a - m0) := rfl
    unfold fpScale
    rw [hsub, hsq]
    show (if (0:ℚ) = 0 then
        (if a - m0 = 0 then FP.nan
         else if 0 < a - m0 then FP.pinf else FP.ninf)
      else FP.num ((a - m0) / 0)).isFinite = false
    rw [if_pos rfl]
    by_cases hz0 : a - m0 = 0
    · rw [if_pos hz0]; rfl
    · rw [if_neg hz0]
      by_cases hp : 0 < a - m0
      · rw [if_pos hp]; rfl
      · rw [if_neg hp]; rfl

theorem C5_zero_variance_entries_witness :
    mergeData ((_transform fpScale [⟨[[FP.num 1], [FP.num 3]], false⟩]
        [⟨[[FP.num 2]], false⟩] [⟨[[FP.num 0]], false⟩]
        (List.replicate 1 none)).filterMap id)
      = scaleMat fpScale (mergeData [⟨[[FP.num 1], [FP.num 3]], false⟩])
          [[FP.num 2]] [[FP.num 0]]
    ∧ ((scaleMat fpScale (mergeData [⟨[[FP.num 1], [FP.num 3]], false⟩])
        [[FP.num 2]] [[FP.num 0]]).getD 0 []).getD 0 default
        = fpScale (FP.num 1) (FP.num 2) (FP.num 0)
    ∧ (fpScale (FP.num 1) (FP.num 2) (FP.num 0)).isFinite = false :=
  C5_zero_variance_entries (n := 2) (f := 1) (w := 1) (i := 0) (j := 0)
    (by decide) (by decide) (by decide) (by decide) (by decide)
    (by decide) (by decide) (by decide) (by decide) (by decide) (by decide)
    (by decide) (by decide) (by decide)

theorem collectS_single {α : Type} (x : BlockStore α) (band : List (Block α))
    (hband : x.blocks = [band])
    (F : List (Block α) → List (Option (Block α)))
    (bs sh : Nat × Nat) (sp : Bool) :
    collectS (ScaledStore.mk (x.blocks.map F) bs sh sp)
      = mergeData ((F band).filterMap id) := by
  show ((x.blocks.map F).map
    (fun band => mergeData (band.filterMap id))).flatten = _
  rw [hband]
  simp

theorem bandBlocks_fitVar {α : Type} [Field α] [Inhabited α]
    (x : BlockStore α) (band : List (Block α)) (hband : x.blocks = [band])
    (m : BlockStore α) (bs sh : Nat × Nat) (sp : Bool) :
    bandBlocks (BlockStore.mk
      [x.blocks.map (fun b => _compute_var b (bandBlocks m))] bs sh sp)
      = [_compute_var band (bandBlocks m)] := by
  show ([x.blocks.map (fun b => _compute_var b (bandBlocks m))]).flatten = _
  rw [hband]
  simp

/-- C1 (amended): for an input whose BlockStore has a single row-band —
the case the spec identifies as the one where fit's per-band partial
variance is the final variance — with every column of nonzero variance,
transform after fit on the same input produces a matrix of column-wise
mean 0 and variance 1, exactly, in real arithmetic. -/
theorem C1_standardizes_single_band (sc : StandardScaler ℝ)
    (x : BlockStore ℝ) (band : List (Block ℝ)) (hband : x.blocks = [band])
    (hWF : WF x) (hvar : ∀ j < x.shape.2, colVar (collect x) j ≠ 0) :
    (∃ out, (sc.fit x).transform realScale x = Except.ok out)
    ∧ ∀ out, (sc.fit x).transform realScale x = Except.ok out →
        ∀ j < x.shape.2, colMean (collectS out) j = 0
          ∧ colVar (collectS out) j = 1 := by
  have hbandmem : band ∈ x.blocks := by
    rw [hband]
    exact List.mem_cons_self _ _
  have hX : ∀ r ∈ mergeData band, r.length = x.shape.2 :=
    hWF.bandRect band hbandmem
  have hXne : mergeData band ≠ [] := hWF.bandRowsNE band hbandmem
  have hnpos : 0 < (mergeData band).length := List.length_pos.mpr hXne
  have hbmpos : 0 < band.length :=
    List.length_pos.mpr (hWF.bandNE band hbandmem)
  have hbl : band.length = numSplits x.shape.2 x.blocksShape.2 :=
    hWF.bandLen band hbandmem
  have hf : 0 < x.shape.2 :=
    pos_of_numSplits_pos (n := x.shape.2) (s := x.blocksShape.2)
      (by rw [← hbl]; exact hbmpos)
  have hnc : ncols (mergeData band) = x.shape.2 := ncols_of_rect ⟨rfl, hX⟩ hnpos
  have hcx : collect x = mergeData band := collect_single x band hband
  have hpw : numSplits x.shape.2 band.length ≤ x.blocksShape.2 := by
    rw [hbl]
    exact numSplits_numSplits_le hWF.wpos
  have heq := transform_ok realScale (sc.fit x) (applyAlongAxisMean x) _ x
    rfl rfl
  refine ⟨⟨_, heq⟩, ?_⟩
  intro out hout
  rw [heq] at hout
  obtain rfl := Except.ok.inj hout
  intro j hj
  rw [collectS_single x band hband]
  rw [bandBlocks_fitVar x band hband (applyAlongAxisMean x)]
  have hM : mergeData (bandBlocks (applyAlongAxisMean x))
      = [(List.range x.shape.2).map (fun j => colMean (collect x) j)] := rfl
  have hV : mergeData
      [_compute_var band (bandBlocks (applyAlongAxisMean x))]
      = [(List.range (ncols (mergeData band))).map (fun j =>
          lmean (colOf (sqDev (mergeData band)
            (mergeData (bandBlocks (applyAlongAxisMean x)))) j))] := rfl
  have hμlen : ((List.range x.shape.2).map
      (fun j => colMean (collect x) j)).length = x.shape.2 := by simp
  have hvlen : ((List.range (ncols (mergeData band))).map (fun j =>
      lmean (colOf (sqDev (mergeData band)
        (mergeData (bandBlocks (applyAlongAxisMean x)))) j))).length
      = x.shape.2 := by
    simp [hnc]
  have hz : ∀ r ∈ scaleMat realScale (mergeData band)
      (mergeData (bandBlocks (applyAlongAxisMean x)))
      (mergeData [_compute_var band (bandBlocks (applyAlongAxisMean x))]),
      r.length = x.shape.2 := by
    rw [hM, hV]
    exact scaleMat_rect realScale (mergeData band) _ _ x.shape.2 hX
      (by omega) (by omega)
  have hcoll := _transform_collect realScale band
    (bandBlocks (applyAlongAxisMean x))
    [_compute_var band (bandBlocks (applyAlongAxisMean x))]
    x.blocksShape.2 (mergeData band).length x.shape.2 ⟨rfl, hX⟩ hnpos hf
    hbmpos hpw hz
  rw [hcoll, hM, hV]
  have hμ : ((List.range x.shape.2).map
      (fun j => colMean (collect x) j)).getD j 0
      = colMean (mergeData band) j := by
    rw [getD_map_range_any _ _ _ _ hj, hcx]
  have hvj : ((List.range (ncols (mergeData band))).map (fun j =>
      lmean (colOf (sqDev (mergeData band)
        (mergeData (bandBlocks (applyAlongAxisMean x)))) j))).getD j 0
      = colVar (mergeData band) j := by
    rw [getD_map_range_any _ _ _ _ (by omega : j < ncols (mergeData band))]
    rw [hM]
    rw [colOf_sqDev (mergeData band) _ j x.shape.2 hj hX (by omega)]
    have hμ' : ((List.range x.shape.2).map
        (fun j => colMean (collect x) j)).getD j default
        = colMean (mergeData band) j := hμ
    rw [hμ']
    rfl
  have hvne : colVar (mergeData band) j ≠ 0 := by
    rw [← hcx]
    exact hvar j hj
  constructor
  · exact scaled_colMean_zero (mergeData band) _ _ j x.shape.2 hj hX
      (by omega) (by omega) hXne hμ
  · exact scaled_colVar_one (mergeData band) _ _ j x.shape.2 hj hX
      (by omega) (by omega) hXne hμ hvj hvne

/-- A single-band, single-block 2 × 1 store over `ℝ` with column values
0 and 2 (mean 1, variance 1). -/
def c1wStore : BlockStore ℝ :=
  { blocks := [[⟨[[0], [2]], false⟩]]
    blocksShape := (2, 1), shape := (2, 1), sparse := false }

theorem C1_standardizes_single_band_witness :
    (((StandardScaler.init (α := ℝ)).fit c1wStore).transform realScale
        c1wStore).map (fun out =>
          (colMean (collectS out) 0, colVar (collectS out) 0))
      = Except.ok ((0 : ℝ), (1 : ℝ)) := by
  obtain ⟨⟨out, hout⟩, hall⟩ :=
    C1_standardizes_single_band StandardScaler.init c1wStore
      [⟨[[0], [2]], false⟩] rfl
      ⟨by decide, by decide, by decide, by decide, by decide, by decide,
       by decide⟩
      (by
        intro j hj
        have hsh : c1wStore.shape.2 = 1 := rfl
        have hj0 : j = 0 := by omega
        subst hj0
        norm_num [colVar, colMean, lmean, colOf, collect, mergeData,
          hcatList, c1wStore])
  obtain ⟨hm, hv⟩ := hall out hout 0 (by decide)
  rw [hout]
  simp [Except.map, hm, hv]

/-- A 4 × 1 store over `ℝ` with two row-bands: rows 2, 4 in the first
band and 0, 6 in the second (global mean 3, variance 5; first band's
partial variance 1). -/
def c1cxStore : BlockStore ℝ :=
  { blocks := [[⟨[[2], [4]], false⟩], [⟨[[0], [6]], false⟩]]
    blocksShape := (2, 1), shape := (4, 1), sparse := false }

/-- C1 counterexample: on a well-formed two-row-band input whose column
has nonzero variance, transform-after-fit divides every band by the first
band's partial variance (the merged variance row is truncated by
broadcasting), and the output's column variance is 5, not 1 — so the
claim fails for inputs with more than one row-band. -/
theorem C1_cx_multi_band :
    WF c1cxStore
    ∧ (∀ j < c1cxStore.shape.2, colVar (collect c1cxStore) j ≠ 0)
    ∧ ∃ out, ((StandardScaler.init (α := ℝ)).fit c1cxStore).transform
        realScale c1cxStore = Except.ok out
      ∧ colVar (collectS out) 0 = 5
      ∧ ¬ colVar (collectS out) 0 = 1 := by
  have hμ : colMean (collect c1cxStore) 0 = 3 := by
    norm_num [colMean, lmean, colOf, collect, mergeData, hcatList, c1cxStore]
  refine ⟨⟨by decide, by decide, by decide, by decide, by decide, by decide,
    by decide⟩, ?_, ?_⟩
  · intro j hj
    have hsh : c1cxStore.shape.2 = 1 := rfl
    have hj0 : j = 0 := by omega
    subst hj0
    norm_num [colVar, colMean, lmean, colOf, collect, mergeData, hcatList,
      c1cxStore]
  · refine ⟨_, transform_ok realScale _ (applyAlongAxisMean c1cxStore) _
      c1cxStore rfl rfl, ?_, ?_⟩
    · norm_num [collectS, collect, StandardScaler.fit, applyAlongAxisMean,
        bandBlocks, _compute_var, _transform, mergeData, hcatList, scaleMat,
        zip3With, sliceCols, mergedSparse, ncols, numSplits, sqDev, colOf,
        colVar, colMean, lmean, realScale, c1cxStore, List.range_succ,
        Real.sqrt_one]
    · norm_num [collectS, collect, StandardScaler.fit, applyAlongAxisMean,
        bandBlocks, _compute_var, _transform, mergeData, hcatList, scaleMat,
        zip3With, sliceCols, mergedSparse, ncols, numSplits, sqDev, colOf,
        colVar, colMean, lmean, realScale, c1cxStore, List.range_succ,
        Real.sqrt_one]
